import Mathlib

/-!
Shallow embedding of the `iforest` repository (src/node.rs, src/forest.rs).

Modelling conventions:
* `f64` values carried by the data are embedded as rationals `ℚ`: every finite
  double is a rational, and all comparisons and arithmetic performed on data
  values by the code (`<`, `min`, `max`, subtraction, the epsilon test) are
  exact on rationals.  The transcendental parts (`ln`, `powf` in `c` and the
  scores) are embedded over `ℝ`.
* The mutable random generator `&mut impl Rng` is embedded as explicit state
  passing over an abstract state type `σ`, packaged with the two draw
  operations the code uses (`random_range(0..n)` on `usize` and
  `random_range(lo..=hi)` on `f64`) together with their range contracts.
* Rust's panicking index `instance[split_feature]` in `path_len` is embedded
  with `List.get?`: an out-of-bounds access (a panic in Rust) yields `none`.
* The rejection-sampling `while` loop of `get_random_subsample` terminates
  only probabilistically in Rust; it is embedded with an explicit fuel
  parameter, `none` meaning the fuel was exhausted.
-/

namespace IForest

/-- Model of the random number generator (`rand::rngs::StdRng` seeded either
from a user seed or from OS entropy).  `randNat n s` models
`rng.random_range(0..n)`, `randRange lo hi s` models
`rng.random_range(lo..=hi)`; both return the drawn value and the advanced
generator state.  The two membership fields are the documented contracts of
`random_range` on non-empty ranges. -/
structure RngModel (σ : Type) where
  randNat : Nat → σ → Nat × σ
  randRange : ℚ → ℚ → σ → ℚ × σ
  seedFromU64 : UInt64 → σ
  randNat_lt : ∀ n s, 0 < n → (randNat n s).1 < n
  randRange_mem : ∀ lo hi s, lo ≤ hi →
    lo ≤ (randRange lo hi s).1 ∧ (randRange lo hi s).1 ≤ hi

/-- Rust `enum IsolationTreeNode` from src/node.rs, polymorphic in the embedded
value type (`ℚ` for the main development, `Option ℚ` for the IEEE-NaN model).
An `Internal` node carries exactly two children by construction of the sum
type, mirroring the two owned `Box`es. -/
inductive IsolationTreeNode (α : Type) where
  | Internal (split_feature : Nat) (split_value : α)
      (left right : IsolationTreeNode α) (depth : Nat)
  | Terminal (size : Nat) (depth : Nat)
deriving DecidableEq, Repr

namespace IsolationTreeNode

/-- Rust `IsolationTreeNode::c` from src/node.rs: the expected path length
correction.  `size` is a `usize`; the body computes over `f64`, embedded
as `ℝ`. -/
noncomputable def c (size : Nat) : ℝ :=
  if size ≤ 1 then 0
  else
    let n : ℝ := size
    2 * (Real.log n + 0.5772156649) - 2 * (n - 1) / n

/-- Rust `IsolationTreeNode::path_len` from src/node.rs.  The Rust index
`instance[*split_feature]` panics when out of bounds; this is embedded as
`List.get?`, with `none` for the panic. -/
noncomputable def path_len : IsolationTreeNode ℚ → List ℚ → Nat → Option ℝ
  | .Terminal size _, _, curr_len => some ((curr_len : ℝ) + c size)
  | .Internal split_feature split_value left right _, inst, curr_len =>
    match inst.get? split_feature with
    | none => none
    | some v =>
      if v < split_value then path_len left inst (curr_len + 1)
      else path_len right inst (curr_len + 1)

/-- Rust `f64::EPSILON` is 2⁻⁵² = 1/4503599627370496, exactly representable as a
rational (the explicit numeral keeps kernel reduction cheap). -/
def f64Epsilon : ℚ := 1 / 4503599627370496

/-- Rust `f64::abs`, written at the level of the `Rat` constructor (same
denominator, absolute value of the numerator) rather than through the
lattice-derived `|·|`, which Lean's definitional unfolding handles poorly
inside recursive definitions; `fabs_eq_abs` checks it is `|·|`. -/
def fabs (q : ℚ) : ℚ :=
  ⟨q.num.natAbs, q.den, q.den_nz, by simpa [Int.natAbs_abs] using q.reduced⟩

/-- The expression `if !data.is_empty() { data[0].len() } else { 0 }` from
`build_isolation_tree` (`headI` defaults to `[]` on empty data). -/
def numFeatures (data : List (List ℚ)) : Nat := data.headI.length

/-- The values `instance[split_feature]` scanned by the min/max loop of
`build_isolation_tree`; the panicking Rust index is rendered with
`getD _ 0` (always in bounds under uniform dimensionality, claim C10). -/
def featureColumn (split_feature : Nat) (data : List (List ℚ)) : List ℚ :=
  data.map (fun row => row.getD split_feature 0)

/-- The `min_val` accumulator of `build_isolation_tree`: Rust folds
`f64::min` starting from `+∞`; over a non-empty list this equals folding
from the first element (`headI`), with no infinities needed over `ℚ`. -/
def foldMin (vals : List ℚ) : ℚ := vals.foldl min vals.headI

/-- The `max_val` accumulator of `build_isolation_tree`, symmetric to
`foldMin` (Rust starts from `-∞`). -/
def foldMax (vals : List ℚ) : ℚ := vals.foldl max vals.headI

/-- The partition predicate `instance[split_feature] < split_value` of
`build_isolation_tree`. -/
def splitLt (split_feature : Nat) (split_value : ℚ) (row : List ℚ) : Bool :=
  decide (row.getD split_feature 0 < split_value)

/-- Rust `IsolationTreeNode::build_isolation_tree` from src/node.rs, with the
straight-line pieces of the body factored into the named helpers above. -/
def build_isolation_tree (R : RngModel σ) (data : List (List ℚ))
    (depth height_limit : Nat) (s : σ) : IsolationTreeNode ℚ × σ :=
  if h : data.length ≤ 1 ∨ height_limit ≤ depth then
    (.Terminal data.length depth, s)
  else
    let fs := R.randNat (numFeatures data) s
    let vals := featureColumn fs.1 data
    if fabs (foldMax vals - foldMin vals) < f64Epsilon then
      (.Terminal data.length depth, fs.2)
    else
      let sv := R.randRange (foldMin vals) (foldMax vals) fs.2
      let part := data.partition (splitLt fs.1 sv.1)
      if part.1.isEmpty || part.2.isEmpty then
        (.Terminal data.length depth, sv.2)
      else
        let lt := build_isolation_tree R part.1 (depth + 1) height_limit sv.2
        let rt := build_isolation_tree R part.2 (depth + 1) height_limit lt.2
        (.Internal fs.1 sv.1 lt.1 rt.1 depth, rt.2)
termination_by height_limit - depth
decreasing_by all_goals omega

/-- Fuel-indexed unfolding of `build_isolation_tree`, used to state its
termination: `none` means the recursion-depth budget `fuel` was exhausted.
The body is the body of `build_isolation_tree`, recursing structurally on
the fuel. -/
def buildFuel (R : RngModel σ) : Nat → List (List ℚ) → Nat → Nat → σ →
    Option (IsolationTreeNode ℚ × σ)
  | 0, _, _, _, _ => none
  | fuel + 1, data, depth, height_limit, s =>
    if data.length ≤ 1 ∨ height_limit ≤ depth then
      some (.Terminal data.length depth, s)
    else
      let fs := R.randNat (numFeatures data) s
      let vals := featureColumn fs.1 data
      if fabs (foldMax vals - foldMin vals) < f64Epsilon then
        some (.Terminal data.length depth, fs.2)
      else
        let sv := R.randRange (foldMin vals) (foldMax vals) fs.2
        let part := data.partition (splitLt fs.1 sv.1)
        if part.1.isEmpty || part.2.isEmpty then
          some (.Terminal data.length depth, sv.2)
        else
          match buildFuel R fuel part.1 (depth + 1) height_limit sv.2 with
          | none => none
          | some lt =>
            match buildFuel R fuel part.2 (depth + 1) height_limit lt.2 with
            | none => none
            | some rt => some (.Internal fs.1 sv.1 lt.1 rt.1 depth, rt.2)

end IsolationTreeNode

/-- Model of an `f64` result that may be non-finite: the score pipeline's
division `-avg_path_len / norm_factor` and `powf` can produce NaN and
signed infinities under IEEE-754 when the normalizer is zero, and these are
ordinary returned values (not panics), so they are carried explicitly. -/
inductive F64 : Type
  | finite (x : ℝ)
  | posInf
  | negInf
  | nan

/-- IEEE-754 division `x / y` of finite doubles as it occurs in
`-avg_path_len / norm_factor`: a finite quotient when `y ≠ 0`; when `y = 0`
(the divisor here is the literal `+0.0` that `c` returns for sizes at most
1) the result is NaN for `x = 0` and `±∞` following the sign of `x`
otherwise. -/
noncomputable def fdiv (x y : ℝ) : F64 :=
  if y = 0 then
    if x = 0 then .nan
    else if 0 < x then .posInf
    else .negInf
  else .finite (x / y)

/-- IEEE-754 `2.0f64.powf` on the (possibly non-finite) exponent:
`2^e` for finite `e` (embedded with `Real.rpow`), `2^(+∞) = +∞`,
`2^(-∞) = +0.0`, and `powf` of NaN is NaN. -/
noncomputable def powf2 : F64 → F64
  | .finite e => .finite ((2 : ℝ) ^ e)
  | .posInf => .posInf
  | .negInf => .finite 0
  | .nan => .nan

/-- Rust `struct IsolationForest` from src/forest.rs.  The `StdRng` field is the
abstract generator state `σ`. -/
structure IsolationForest (σ : Type) where
  trees : List (IsolationTreeNode ℚ)
  num_trees : Nat
  subsample_size : Nat
  max_tree_height : Nat
  rng : σ

namespace IsolationForest

/-- Rust `IsolationForest::new` from src/forest.rs.  `osEntropy` is the state
`StdRng::from_os_rng()` would produce, supplied externally to model the
entropy source; it is consulted only when `seed` is `none`.
`(subsample_size as f64).log2().ceil() as usize` is `⌈log₂ subsample_size⌉`,
i.e. `Nat.clog 2` (the saturating cast sends the `-∞` of `log2(0)` to `0`,
matching `Nat.clog 2 0 = 0`). -/
def new (R : RngModel σ) (num_trees subsample_size : Nat)
    (seed : Option UInt64) (osEntropy : σ) : IsolationForest σ :=
  let rng := match seed with
    | some sd => R.seedFromU64 sd
    | none => osEntropy
  { trees := []
    num_trees := num_trees
    subsample_size := subsample_size
    max_tree_height := Nat.clog 2 subsample_size
    rng := rng }

/-- The `while indices.len() < sample_size` rejection-sampling loop of
`IsolationForest::get_random_subsample`, with explicit fuel (one unit per
draw); `none` means the fuel ran out before enough distinct indices were
collected.  `indices.push(idx)` appends at the end. -/
def sampleLoop (R : RngModel σ) (data_size sample_size : Nat) :
    Nat → List Nat → σ → Option (List Nat × σ)
  | fuel, indices, s =>
    if sample_size ≤ indices.length then some (indices, s)
    else
      match fuel with
      | 0 => none
      | fuel + 1 =>
        let p := R.randNat data_size s
        if p.1 ∈ indices then sampleLoop R data_size sample_size fuel indices p.2
        else sampleLoop R data_size sample_size fuel (indices ++ [p.1]) p.2

/-- Rust `IsolationForest::get_random_subsample` from src/forest.rs.  The
`&mut self` receiver is rendered by passing `subsample_size` and the
generator state explicitly.  `data[idx].clone()` is rendered with
`getD _ []`; the selected indices are always in bounds (claim C6). -/
def get_random_subsample (R : RngModel σ) (subsample_size : Nat)
    (data : List (List ℚ)) (fuel : Nat) (s : σ) :
    Option (List (List ℚ) × σ) :=
  let data_size := data.length
  let sample_size := min subsample_size data_size
  if sample_size = data_size then some (data, s)
  else
    match sampleLoop R data_size sample_size fuel [] s with
    | none => none
    | some (indices, s1) =>
      some (indices.map (fun idx => data.getD idx []), s1)

/-- The `for _ in 0..self.num_trees` loop of `IsolationForest::fit`:
draw a subsample, build a tree from it, push it onto the ensemble. -/
def fitLoop (R : RngModel σ) (subsample_size max_tree_height : Nat)
    (data : List (List ℚ)) (fuel : Nat) :
    Nat → List (IsolationTreeNode ℚ) → σ →
    Option (List (IsolationTreeNode ℚ) × σ)
  | 0, acc, s => some (acc, s)
  | n + 1, acc, s =>
    match get_random_subsample R subsample_size data fuel s with
    | none => none
    | some (subsample, s1) =>
      let ts := IsolationTreeNode.build_isolation_tree R subsample 0 max_tree_height s1
      fitLoop R subsample_size max_tree_height data fuel n (acc ++ [ts.1]) ts.2

/-- Rust `IsolationForest::fit` from src/forest.rs: clears the ensemble
(the loop starts from `[]`) and builds `num_trees` trees, threading the
generator state. -/
def fit (R : RngModel σ) (F : IsolationForest σ) (data : List (List ℚ))
    (fuel : Nat) : Option (IsolationForest σ) :=
  match fitLoop R F.subsample_size F.max_tree_height data fuel F.num_trees [] F.rng with
  | none => none
  | some (trees, s1) => some { F with trees := trees, rng := s1 }

/-- Rust `IsolationForest::avg_path_len` from src/forest.rs: `0.0` on an empty
ensemble, else the sum of `path_len(instance, 0)` over the trees divided by
the tree count.  A panic inside any `path_len` (out-of-bounds feature
access) propagates as `none`. -/
noncomputable def avg_path_len (F : IsolationForest σ) (inst : List ℚ) :
    Option ℝ :=
  if F.trees = [] then some 0
  else
    (F.trees.mapM (fun t => IsolationTreeNode.path_len t inst 0)).map
      (fun ls => ls.sum / (F.trees.length : ℝ))

/-- Rust `IsolationForest::score_instance` from src/forest.rs:
`2.0f64.powf(-avg_path_len / norm_factor)` with
`norm_factor = c(subsample_size)`, rendered as `powf2 (fdiv (-avg) norm)`
so that the IEEE non-finite outcomes are kept: when the normalizer is zero
(subsample_size at most 1) the division is `-0.0 / 0.0 = NaN` (or `±∞` for
a nonzero numerator) and `powf` propagates it.  The outer `Option` is the
panic from `avg_path_len`, the `F64` the returned double. -/
noncomputable def score_instance (F : IsolationForest σ) (inst : List ℚ) :
    Option F64 :=
  (avg_path_len F inst).map
    (fun a => powf2 (fdiv (-a) (IsolationTreeNode.c F.subsample_size)))

/-- Rust `IsolationForest::score` from src/forest.rs: map `score_instance` over
the data in order, collecting the results (a panic anywhere propagates as
`none`). -/
noncomputable def score (F : IsolationForest σ) (data : List (List ℚ)) :
    Option (List F64) :=
  data.mapM (score_instance F)

end IsolationForest

namespace IsolationTreeNode

/-- Stored `depth` field of a node's root constructor. -/
def nodeDepth : IsolationTreeNode α → Nat
  | .Internal _ _ _ _ d => d
  | .Terminal _ d => d

/-- Every child's stored depth is its parent's stored depth plus one,
recursively. -/
def depthsLinked : IsolationTreeNode α → Bool
  | .Terminal _ _ => true
  | .Internal _ _ l r d =>
    (l.nodeDepth == d + 1) && (r.nodeDepth == d + 1) &&
      l.depthsLinked && r.depthsLinked

/-- Every stored depth in the tree is at most `bound`. -/
def depthsLe (bound : Nat) : IsolationTreeNode α → Bool
  | .Terminal _ d => d ≤ bound
  | .Internal _ _ l r d => decide (d ≤ bound) && l.depthsLe bound && r.depthsLe bound

/-- Structural height: the maximum number of edges on a root-to-leaf path. -/
def height : IsolationTreeNode α → Nat
  | .Terminal _ _ => 0
  | .Internal _ _ l r _ => max l.height r.height + 1

/-- The children of a node: the two boxed subtrees of an `Internal`,
nothing for a `Terminal`. -/
def children : IsolationTreeNode α → List (IsolationTreeNode α)
  | .Terminal _ _ => []
  | .Internal _ _ l r _ => [l, r]

/-- All subtrees of a tree, the tree itself included. -/
def subtreesList : IsolationTreeNode α → List (IsolationTreeNode α)
  | .Terminal size d => [.Terminal size d]
  | .Internal f v l r d =>
    .Internal f v l r d :: (l.subtreesList ++ r.subtreesList)

/-- Whether the node is an `Internal`. -/
def isInternal : IsolationTreeNode α → Bool
  | .Terminal _ _ => false
  | .Internal _ _ _ _ _ => true

/-- Every `Internal` subtree has exactly two children. -/
def strictBinary (t : IsolationTreeNode α) : Bool :=
  t.subtreesList.all (fun u => !u.isInternal || u.children.length == 2)

/-- Every `Internal` node's `split_feature` is strictly below `d`. -/
def featuresLt (d : Nat) : IsolationTreeNode α → Bool
  | .Terminal _ _ => true
  | .Internal f _ l r _ => decide (f < d) && l.featuresLt d && r.featuresLt d

/-- Sum of the `size` fields over the `Terminal` leaves. -/
def leafSizeSum : IsolationTreeNode α → Nat
  | .Terminal size _ => size
  | .Internal _ _ l r _ => l.leafSizeSum + r.leafSizeSum

/-- IEEE-754 `<` on the `f64` model `Option ℚ`, where `none` stands for NaN:
any comparison with a NaN operand is `false`. -/
def fplt : Option ℚ → Option ℚ → Bool
  | some a, some b => decide (a < b)
  | _, _ => false

/-- Rust `IsolationTreeNode::path_len` again, over the `f64` model `Option ℚ`
(`none` = NaN) with the IEEE comparison `fplt` standing for
`instance[*split_feature] < *split_value`; out-of-bounds access is `none`
as in `path_len`. -/
noncomputable def path_len_ieee :
    IsolationTreeNode (Option ℚ) → List (Option ℚ) → Nat → Option ℝ
  | .Terminal size _, _, curr_len => some ((curr_len : ℝ) + c size)
  | .Internal split_feature split_value left right _, inst, curr_len =>
    match inst.get? split_feature with
    | none => none
    | some v =>
      if fplt v split_value then path_len_ieee left inst (curr_len + 1)
      else path_len_ieee right inst (curr_len + 1)

/-- Modelled from the spec: the traversal that "always descends rightward
through every tree" — at each `Internal` node take the right child
(provided the feature access is in bounds), accumulating one edge per
level; used as the comparison point for the NaN-routing claim. -/
noncomputable def descendRight :
    IsolationTreeNode (Option ℚ) → List (Option ℚ) → Nat → Option ℝ
  | .Terminal size _, _, curr_len => some ((curr_len : ℝ) + c size)
  | .Internal split_feature _ _ right _, inst, curr_len =>
    if split_feature < inst.length then descendRight right inst (curr_len + 1)
    else none

end IsolationTreeNode

/-- A concrete, fully computable generator model over the unit state: the
`usize` draw always returns `0` and the `f64` draw returns the midpoint of
the range.  Used to evaluate the embedding on concrete inputs. -/
def RConst : RngModel Unit where
  randNat := fun _ _ => (0, ())
  randRange := fun lo hi _ => ((lo + hi) / 2, ())
  seedFromU64 := fun _ => ()
  randNat_lt := by
    intro n s h
    simpa using h
  randRange_mem := by
    intro lo hi s h
    constructor <;> [linarith; linarith]

/-- A forest on which `fit` was never called, with the spec-valid
`subsample_size = 1` (the smallest the spec allows): empty ensemble and
normalizer `c 1 = 0`. -/
def unfitForest1 : IsolationForest Unit :=
  { trees := [], num_trees := 0, subsample_size := 1, max_tree_height := 0, rng := () }

/-- A forest on which `fit` was never called, with `subsample_size = 2`
(positive normalizer). -/
def unfitForest2 : IsolationForest Unit :=
  { trees := [], num_trees := 0, subsample_size := 2, max_tree_height := 1, rng := () }

/-- The forest `fit` produces from `new(num_trees 1, subsample_size 1,
seed)` on the one-point dataset `[[0]]`: a single `Terminal{size 1, depth
0}` tree (checked in the C1 counterexample). -/
def fittedUnitForest : IsolationForest Unit :=
  { trees := [.Terminal 1 0], num_trees := 1, subsample_size := 1,
    max_tree_height := Nat.clog 2 1, rng := () }

namespace IsolationTreeNode

theorem fabs_eq_abs (q : ℚ) : fabs q = |q| := by
  rcases le_or_lt 0 q.num with h | h
  · rw [abs_of_nonneg (by rwa [Rat.num_nonneg] at h)]
    simp [fabs, Int.natAbs_of_nonneg h]
  · rw [abs_of_neg (by rwa [Rat.num_neg] at h)]
    apply Rat.ext
    · simp [fabs, Rat.neg_num, Int.ofNat_natAbs_of_nonpos (le_of_lt h)]
    · simp [fabs, Rat.neg_den]

theorem length_filter_both (p : α → Bool) (l : List α) :
    (l.filter p).length + (l.filter (not ∘ p)).length = l.length := by
  induction l with
  | nil => rfl
  | cons a l ih =>
    by_cases h : p a <;> simp [List.filter_cons, h, Function.comp] <;> omega

theorem partition_length (p : α → Bool) (l : List α) :
    (l.partition p).1.length + (l.partition p).2.length = l.length := by
  rw [List.partition_eq_filter_filter]
  exact length_filter_both p l

theorem partition_mem_left (p : α → Bool) (l : List α) (x : α)
    (hx : x ∈ (l.partition p).1) : x ∈ l := by
  rw [List.partition_eq_filter_filter] at hx
  exact (List.mem_filter.mp hx).1

theorem partition_mem_right (p : α → Bool) (l : List α) (x : α)
    (hx : x ∈ (l.partition p).2) : x ∈ l := by
  rw [List.partition_eq_filter_filter] at hx
  exact (List.mem_filter.mp hx).1

theorem build_nodeDepth (R : RngModel σ) (data : List (List ℚ))
    (depth height_limit : Nat) (s : σ) :
    ((build_isolation_tree R data depth height_limit s).1).nodeDepth = depth := by
  rw [build_isolation_tree.eq_def]
  repeat' first
    | rfl
    | split
    | dsimp only

theorem build_leafSizeSum_aux (R : RngModel σ) (height_limit : Nat) :
    ∀ gas data depth s, height_limit - depth ≤ gas →
      leafSizeSum (build_isolation_tree R data depth height_limit s).1 = data.length := by
  intro gas
  induction gas with
  | zero =>
    intro data depth s hg
    rw [build_isolation_tree.eq_def, dif_pos (Or.inr (by omega))]
    rfl
  | succ gas ih =>
    intro data depth s hg
    rw [build_isolation_tree.eq_def]
    split
    · rfl
    · next h =>
      dsimp only
      split
      · rfl
      · split
        · rfl
        · dsimp only [leafSizeSum]
          rw [ih _ (depth + 1) _ (by omega), ih _ (depth + 1) _ (by omega)]
          exact partition_length _ data

theorem build_depthsLinked_aux (R : RngModel σ) (height_limit : Nat) :
    ∀ gas data depth s, height_limit - depth ≤ gas →
      depthsLinked (build_isolation_tree R data depth height_limit s).1 = true := by
  intro gas
  induction gas with
  | zero =>
    intro data depth s hg
    rw [build_isolation_tree.eq_def, dif_pos (Or.inr (by omega))]
    rfl
  | succ gas ih =>
    intro data depth s hg
    rw [build_isolation_tree.eq_def]
    split
    · rfl
    · next h =>
      dsimp only
      split
      · rfl
      · split
        · rfl
        · simp only [depthsLinked, Bool.and_eq_true, beq_iff_eq]
          refine ⟨⟨⟨build_nodeDepth R _ _ _ _, build_nodeDepth R _ _ _ _⟩, ?_⟩, ?_⟩
          · exact ih _ (depth + 1) _ (by omega)
          · exact ih _ (depth + 1) _ (by omega)

theorem build_depthsLe_aux (R : RngModel σ) (height_limit : Nat) :
    ∀ gas data depth s, height_limit - depth ≤ gas → depth ≤ height_limit →
      depthsLe height_limit (build_isolation_tree R data depth height_limit s).1 = true := by
  intro gas
  induction gas with
  | zero =>
    intro data depth s hg hdep
    rw [build_isolation_tree.eq_def, dif_pos (Or.inr (by omega))]
    simp [depthsLe, hdep]
  | succ gas ih =>
    intro data depth s hg hdep
    rw [build_isolation_tree.eq_def]
    split
    · simp [depthsLe, hdep]
    · next h =>
      dsimp only
      split
      · simp [depthsLe, hdep]
      · split
        · simp [depthsLe, hdep]
        · simp only [depthsLe, Bool.and_eq_true, decide_eq_true_eq]
          refine ⟨⟨hdep, ?_⟩, ?_⟩
          · exact ih _ (depth + 1) _ (by omega) (by omega)
          · exact ih _ (depth + 1) _ (by omega) (by omega)

theorem build_height_aux (R : RngModel σ) (height_limit : Nat) :
    ∀ gas data depth s, height_limit - depth ≤ gas →
      height (build_isolation_tree R data depth height_limit s).1 ≤
        height_limit - depth := by
  intro gas
  induction gas with
  | zero =>
    intro data depth s hg
    rw [build_isolation_tree.eq_def, dif_pos (Or.inr (by omega))]
    exact Nat.zero_le _
  | succ gas ih =>
    intro data depth s hg
    rw [build_isolation_tree.eq_def]
    split
    · exact Nat.zero_le _
    · next h =>
      dsimp only
      split
      · exact Nat.zero_le _
      · split
        · exact Nat.zero_le _
        · dsimp only [height]
          have hx : height_limit - (depth + 1) ≤ gas := by omega
          refine Nat.le_trans
            (Nat.add_le_add_right
              (Nat.max_le.mpr ⟨ih _ (depth + 1) _ hx, ih _ (depth + 1) _ hx⟩) 1)
            (by omega)

theorem strictBinary_true (t : IsolationTreeNode α) : t.strictBinary = true := by
  induction t with
  | Terminal size d => rfl
  | Internal f v l r d ihl ihr =>
    simp only [strictBinary, subtreesList, List.all_cons, List.all_append,
      Bool.and_eq_true] at ihl ihr ⊢
    exact ⟨rfl, ihl, ihr⟩

end IsolationTreeNode



namespace IsolationTreeNode

theorem headI_mem [Inhabited α] (l : List α) (h : l ≠ []) : l.headI ∈ l := by
  cases l with
  | nil => exact absurd rfl h
  | cons a t => exact List.mem_cons_self a t

theorem build_featuresLt_aux (R : RngModel σ) (height_limit d : Nat) (hd : 0 < d) :
    ∀ gas data depth s, height_limit - depth ≤ gas →
      (∀ row ∈ data, row.length = d) →
      featuresLt d (build_isolation_tree R data depth height_limit s).1 = true := by
  intro gas
  induction gas with
  | zero =>
    intro data depth s hg hrows
    rw [build_isolation_tree.eq_def, dif_pos (Or.inr (by omega))]
    rfl
  | succ gas ih =>
    intro data depth s hg hrows
    rw [build_isolation_tree.eq_def]
    split
    · rfl
    · next h =>
      have hne : data ≠ [] := by
        intro hnil
        exact h (Or.inl (by simp [hnil]))
      have hnf : numFeatures data = d := by
        unfold numFeatures
        exact hrows data.headI (headI_mem data hne)
      dsimp only
      split
      · rfl
      · split
        · rfl
        · simp only [featuresLt, Bool.and_eq_true, decide_eq_true_eq]
          refine ⟨⟨?_, ?_⟩, ?_⟩
          · rw [hnf] at *
            exact R.randNat_lt d s hd
          · exact ih _ (depth + 1) _ (by omega)
              (fun row hr => hrows row (partition_mem_left _ _ _ hr))
          · exact ih _ (depth + 1) _ (by omega)
              (fun row hr => hrows row (partition_mem_right _ _ _ hr))

theorem path_len_oob (sf : Nat) (sv : ℚ) (l r : IsolationTreeNode ℚ)
    (dp : Nat) (inst : List ℚ) (k : Nat) (hlen : inst.length ≤ sf) :
    path_len (.Internal sf sv l r dp) inst k = none := by
  rw [path_len, List.get?_eq_none.mpr hlen]

theorem path_len_isSome (d : Nat) :
    ∀ t : IsolationTreeNode ℚ, featuresLt d t = true →
      ∀ inst : List ℚ, d ≤ inst.length → ∀ k,
        (path_len t inst k).isSome = true := by
  intro t
  induction t with
  | Terminal size dp => intro _ inst _ k; rfl
  | Internal sf sv l r dp ihl ihr =>
    intro hf inst hlen k
    simp only [featuresLt, Bool.and_eq_true, decide_eq_true_eq] at hf
    obtain ⟨⟨hsf, hfl⟩, hfr⟩ := hf
    have hin : sf < inst.length := lt_of_lt_of_le hsf hlen
    cases hget : inst.get? sf with
    | none => exact absurd (List.get?_eq_none.mp hget) (by omega)
    | some v =>
      rw [path_len, hget]
      dsimp only
      split
      · exact ihl hfl inst hlen (k + 1)
      · exact ihr hfr inst hlen (k + 1)

theorem c_nonneg (size : Nat) : 0 ≤ c size := by
  unfold c
  split
  · exact le_refl 0
  · next h =>
    have h2 : (2 : ℝ) ≤ (size : ℝ) := by
      have : 2 ≤ size := by omega
      exact_mod_cast this
    have hlog2 : (0.6931471803 : ℝ) < Real.log 2 := Real.log_two_gt_d9
    have hlog : Real.log 2 ≤ Real.log size := Real.log_le_log (by norm_num) h2
    have hpos : (0 : ℝ) < (size : ℝ) := by linarith
    have hdiv : 2 * ((size : ℝ) - 1) / size ≤ 2 := by
      rw [div_le_iff₀ hpos]
      nlinarith
    dsimp only
    linarith

theorem c_eq_zero_of_le_one (size : Nat) (h : size ≤ 1) : c size = 0 := by
  unfold c
  rw [if_pos h]

theorem c_pos (size : Nat) (h : 2 ≤ size) : 0 < c size := by
  unfold c
  rw [if_neg (by omega)]
  have h2 : (2 : ℝ) ≤ (size : ℝ) := by exact_mod_cast h
  have hlog2 : (0.6931471803 : ℝ) < Real.log 2 := Real.log_two_gt_d9
  have hlog : Real.log 2 ≤ Real.log size := Real.log_le_log (by norm_num) h2
  have hpos : (0 : ℝ) < (size : ℝ) := by linarith
  have hdiv : 2 * ((size : ℝ) - 1) / size ≤ 2 := by
    rw [div_le_iff₀ hpos]
    nlinarith
  dsimp only
  linarith

theorem path_len_nonneg :
    ∀ (t : IsolationTreeNode ℚ) (inst : List ℚ) (k : Nat) (r : ℝ),
      path_len t inst k = some r → 0 ≤ r := by
  intro t
  induction t with
  | Terminal size dp =>
    intro inst k r h
    rw [path_len] at h
    obtain rfl : (k : ℝ) + c size = r := Option.some.inj h
    have := c_nonneg size
    positivity
  | Internal sf sv l r dp ihl ihr =>
    intro inst k x h
    rw [path_len] at h
    cases hget : inst.get? sf with
    | none => rw [hget] at h; exact absurd h (by simp)
    | some v =>
      rw [hget] at h
      dsimp only at h
      split at h
      · exact ihl inst (k + 1) x h
      · exact ihr inst (k + 1) x h

end IsolationTreeNode

theorem mapM_option_length {α β : Type} (f : α → Option β) :
    ∀ (l : List α) (ys : List β), l.mapM f = some ys → ys.length = l.length := by
  intro l
  induction l with
  | nil =>
    intro ys h
    rw [List.mapM_nil] at h
    obtain rfl : [] = ys := Option.some.inj h
    rfl
  | cons a l ih =>
    intro ys h
    rw [List.mapM_cons] at h
    simp only [Option.bind_eq_bind, Option.pure_def, Option.bind_eq_some] at h
    obtain ⟨b, hb, bs, hbs, hys⟩ := h
    obtain rfl : b :: bs = ys := Option.some.inj hys
    simp [ih bs hbs]

theorem mapM_option_get {α β : Type} (f : α → Option β) :
    ∀ (l : List α) (ys : List β), l.mapM f = some ys →
      ∀ i, ys.get? i = (l.get? i).bind f := by
  intro l
  induction l with
  | nil =>
    intro ys h i
    rw [List.mapM_nil] at h
    obtain rfl : [] = ys := Option.some.inj h
    rfl
  | cons a l ih =>
    intro ys h i
    rw [List.mapM_cons] at h
    simp only [Option.bind_eq_bind, Option.pure_def, Option.bind_eq_some] at h
    obtain ⟨b, hb, bs, hbs, hys⟩ := h
    obtain rfl : b :: bs = ys := Option.some.inj hys
    cases i with
    | zero => simp [hb]
    | succ i => simpa using ih bs hbs i

theorem mapM_option_mem {α β : Type} (f : α → Option β) :
    ∀ (l : List α) (ys : List β), l.mapM f = some ys →
      ∀ y ∈ ys, ∃ x ∈ l, f x = some y := by
  intro l
  induction l with
  | nil =>
    intro ys h y hy
    rw [List.mapM_nil] at h
    obtain rfl : [] = ys := Option.some.inj h
    exact absurd hy (by simp)
  | cons a l ih =>
    intro ys h y hy
    rw [List.mapM_cons] at h
    simp only [Option.bind_eq_bind, Option.pure_def, Option.bind_eq_some] at h
    obtain ⟨b, hb, bs, hbs, hys⟩ := h
    obtain rfl : b :: bs = ys := Option.some.inj hys
    rcases List.mem_cons.mp hy with rfl | hy
    · exact ⟨a, List.mem_cons_self a l, hb⟩
    · obtain ⟨x, hx, hfx⟩ := ih bs hbs y hy
      exact ⟨x, List.mem_cons_of_mem a hx, hfx⟩

namespace IsolationForest

theorem avg_path_len_nonneg (F : IsolationForest σ) (inst : List ℚ) (a : ℝ)
    (h : avg_path_len F inst = some a) : 0 ≤ a := by
  unfold avg_path_len at h
  split at h
  · obtain rfl : (0 : ℝ) = a := Option.some.inj h
    exact le_refl 0
  · cases hm : F.trees.mapM (fun t => IsolationTreeNode.path_len t inst 0) with
    | none => rw [hm] at h; exact absurd h (by simp)
    | some ls =>
      rw [hm] at h
      obtain rfl : ls.sum / (F.trees.length : ℝ) = a := Option.some.inj h
      have hsum : 0 ≤ ls.sum := by
        apply List.sum_nonneg
        intro x hx
        obtain ⟨t, _, hpt⟩ := mapM_option_mem _ _ _ hm x hx
        exact IsolationTreeNode.path_len_nonneg t inst 0 x hpt
      exact div_nonneg hsum (by positivity)

theorem score_instance_bounds (F : IsolationForest σ) (inst : List ℚ)
    (e : F64) (hss : 2 ≤ F.subsample_size) (h : score_instance F inst = some e) :
    ∃ x : ℝ, e = F64.finite x ∧ 0 < x ∧ x ≤ 1 := by
  unfold score_instance at h
  cases ha : avg_path_len F inst with
  | none => rw [ha] at h; exact absurd h (by simp)
  | some a =>
    rw [ha] at h
    obtain rfl : powf2 (fdiv (-a) (IsolationTreeNode.c F.subsample_size)) = e :=
      Option.some.inj h
    have hc := IsolationTreeNode.c_pos F.subsample_size hss
    rw [fdiv, if_neg (ne_of_gt hc)]
    refine ⟨(2 : ℝ) ^ (-a / IsolationTreeNode.c F.subsample_size), rfl, ?_, ?_⟩
    · exact Real.rpow_pos_of_pos (by norm_num) _
    · apply Real.rpow_le_one_of_one_le_of_nonpos (by norm_num)
      exact div_nonpos_of_nonpos_of_nonneg
        (neg_nonpos.mpr (avg_path_len_nonneg F inst a ha)) (le_of_lt hc)

end IsolationForest

namespace IsolationForest

theorem avg_path_len_empty (F : IsolationForest σ) (h : F.trees = [])
    (inst : List ℚ) : avg_path_len F inst = some 0 := by
  unfold avg_path_len
  rw [if_pos h]

theorem score_instance_unfit (F : IsolationForest σ) (h : F.trees = [])
    (inst : List ℚ) :
    score_instance F inst
      = some (powf2 (fdiv 0 (IsolationTreeNode.c F.subsample_size))) := by
  unfold score_instance
  rw [avg_path_len_empty F h inst]
  simp

theorem score_instance_unfit_ge2 (F : IsolationForest σ) (h : F.trees = [])
    (hss : 2 ≤ F.subsample_size) (inst : List ℚ) :
    score_instance F inst = some (F64.finite 1) := by
  rw [score_instance_unfit F h inst, fdiv,
    if_neg (ne_of_gt (IsolationTreeNode.c_pos F.subsample_size hss)), zero_div]
  simp [powf2, Real.rpow_zero]

theorem score_instance_unfit_le1 (F : IsolationForest σ) (h : F.trees = [])
    (hss : F.subsample_size ≤ 1) (inst : List ℚ) :
    score_instance F inst = some F64.nan := by
  rw [score_instance_unfit F h inst,
    IsolationTreeNode.c_eq_zero_of_le_one F.subsample_size hss]
  simp [fdiv, powf2]

theorem score_unfit_all (F : IsolationForest σ) (h : F.trees = [])
    (hss : 2 ≤ F.subsample_size) (data : List (List ℚ)) :
    score F data = some (data.map fun _ => F64.finite 1) := by
  unfold score
  induction data with
  | nil => rfl
  | cons a l ih =>
    rw [List.mapM_cons, score_instance_unfit_ge2 F h hss]
    simp only [Option.bind_eq_bind, Option.pure_def]
    rw [ih]
    rfl

/-- C1 as frozen is false: with the spec-valid `subsample_size = 1`, `fit`
builds single-point `Terminal` trees (here from the one-point dataset
`[[0]]`), every path length and hence the average is `0.0`, the normalizer
`c(1)` is `0.0`, and the score the program returns is
`2^(-0.0/0.0) = 2^NaN = NaN`: a normally returned entry (right length and
order) that does not lie in (0, 1]. -/
theorem score_nan_at_unit_subsample :
    fit RConst (new RConst 1 1 (some 0) ()) [[0]] 1 = some fittedUnitForest ∧
    score fittedUnitForest [[0]] = some [F64.nan] ∧
    ¬ (∀ e ∈ [F64.nan], ∃ x : ℝ, e = F64.finite x ∧ 0 < x ∧ x ≤ 1) := by
  have hb : IsolationTreeNode.build_isolation_tree RConst [[0]] 0
      (Nat.clog 2 1) () = (.Terminal 1 0, ()) := by
    rw [IsolationTreeNode.build_isolation_tree.eq_def,
      dif_pos (Or.inl (by decide))]
    rfl
  have hsub : get_random_subsample RConst 1 [[0]] 1 () = some ([[0]], ()) := by
    decide
  have hfit : fit RConst (new RConst 1 1 (some 0) ()) [[0]] 1
      = some fittedUnitForest := by
    unfold fit
    dsimp only [new]
    simp only [fitLoop, hsub, hb]
    rfl
  have hpl : IsolationTreeNode.path_len (.Terminal 1 0) [0] 0 = some 0 := by
    rw [IsolationTreeNode.path_len,
      IsolationTreeNode.c_eq_zero_of_le_one 1 (by omega)]
    norm_num
  have htrees : fittedUnitForest.trees = [IsolationTreeNode.Terminal 1 0] := rfl
  have havg : avg_path_len fittedUnitForest [0] = some 0 := by
    unfold avg_path_len
    rw [htrees, if_neg (by decide), List.mapM_cons, List.mapM_nil, hpl]
    simp only [Option.bind_eq_bind, Option.pure_def, Option.some_bind]
    norm_num
  have hsi : score_instance fittedUnitForest [0] = some F64.nan := by
    unfold score_instance
    rw [havg,
      show fittedUnitForest.subsample_size = 1 from rfl,
      IsolationTreeNode.c_eq_zero_of_le_one 1 (by omega)]
    simp [fdiv, powf2]
  have hscore : score fittedUnitForest [[0]] = some [F64.nan] := by
    unfold score
    rw [List.mapM_cons, hsi, List.mapM_nil]
    rfl
  refine ⟨hfit, hscore, ?_⟩
  intro hall
  obtain ⟨x, hx, _, _⟩ := hall F64.nan (by simp)
  exact F64.noConfusion hx

/-- C1 (amended): for every forest and dataset, whenever `score` returns
(no out-of-bounds panic), it returns one entry per input point (same
length), aligned index by index with the dataset through `score_instance`;
and provided `subsample_size` is at least 2 (so the normalizer
`c(subsample_size)` is positive; at `subsample_size` at most 1 the division
by `0.0` makes entries NaN), every returned entry is a finite value in the
open-closed interval (0, 1]. -/
theorem score_length_order_range (F : IsolationForest σ)
    (data : List (List ℚ)) (l : List F64) (h : score F data = some l) :
    l.length = data.length ∧
    (∀ i, l.get? i = (data.get? i).bind (score_instance F)) ∧
    (2 ≤ F.subsample_size →
      ∀ e ∈ l, ∃ x : ℝ, e = F64.finite x ∧ 0 < x ∧ x ≤ 1) := by
  refine ⟨mapM_option_length _ _ _ h, mapM_option_get _ _ _ h, ?_⟩
  intro hss e he
  obtain ⟨inst, _, hsc⟩ := mapM_option_mem _ _ _ h e he
  exact score_instance_bounds F inst e hss hsc

theorem score_length_order_range_witness :
    score unfitForest2 [[]] = some [F64.finite 1] ∧
    [F64.finite 1].length = [([] : List ℚ)].length ∧
    2 ≤ unfitForest2.subsample_size ∧
    (∃ x : ℝ, F64.finite 1 = F64.finite x ∧ 0 < x ∧ x ≤ 1) := by
  have h : score unfitForest2 [([] : List ℚ)] = some [F64.finite 1] := by
    simpa using score_unfit_all unfitForest2 rfl (by decide) [[]]
  refine ⟨h, (score_length_order_range unfitForest2 [[]] [F64.finite 1] h).1,
    by decide, ?_⟩
  exact (score_length_order_range unfitForest2 [[]] [F64.finite 1] h).2.2
    (by decide) (F64.finite 1) (by simp)

/-- C7 as frozen is false: an unfit forest (empty ensemble) with the
spec-valid `subsample_size = 1` has normalizer `c(1) = 0.0`, and the value
the program returns for any point is `2^(-0.0/0.0) = NaN`, not `1.0`. -/
theorem unfit_score_nan_at_small_subsample :
    unfitForest1.trees = [] ∧
    score_instance unfitForest1 [] = some F64.nan ∧
    F64.nan ≠ F64.finite 1 :=
  ⟨rfl, score_instance_unfit_le1 unfitForest1 rfl (by decide) [],
   fun hx => F64.noConfusion hx⟩

/-- C7 (amended): scoring against an unfit forest (empty ensemble, `fit`
never called) returns exactly 1 for every point provided `subsample_size`
is at least 2: `avg_path_len` is defined as 0 on an empty ensemble and the
normalization yields `2 ^ (-0.0 / c) = 2 ^ 0 = 1`; with `subsample_size` at
most 1 the normalizer `c(subsample_size)` is `0.0` and the returned value
is NaN (`2^(-0.0/0.0)`) instead. -/
theorem unfit_score (F : IsolationForest σ) (h : F.trees = []) :
    (2 ≤ F.subsample_size →
      (∀ inst, score_instance F inst = some (F64.finite 1)) ∧
      (∀ data, score F data = some (data.map fun _ => F64.finite 1))) ∧
    (F.subsample_size ≤ 1 →
      ∀ inst, score_instance F inst = some F64.nan) :=
  ⟨fun hss => ⟨fun inst => score_instance_unfit_ge2 F h hss inst,
    fun data => score_unfit_all F h hss data⟩,
   fun hss inst => score_instance_unfit_le1 F h hss inst⟩

theorem unfit_score_witness :
    unfitForest2.trees = [] ∧ 2 ≤ unfitForest2.subsample_size ∧
    score_instance unfitForest2 [] = some (F64.finite 1) ∧
    unfitForest1.trees = [] ∧ unfitForest1.subsample_size ≤ 1 ∧
    score_instance unfitForest1 [] = some F64.nan :=
  ⟨rfl, by decide, ((unfit_score unfitForest2 rfl).1 (by decide)).1 [],
   rfl, by decide, (unfit_score unfitForest1 rfl).2 (by decide) []⟩

end IsolationForest

namespace IsolationTreeNode

theorem partition_strict_shrink (p : α → Bool) (l : List α)
    (h1 : (l.partition p).1 ≠ []) (h2 : (l.partition p).2 ≠ []) :
    (l.partition p).1.length < l.length ∧ (l.partition p).2.length < l.length := by
  have hsum := partition_length p l
  have hp1 : 0 < (l.partition p).1.length := List.length_pos.mpr h1
  have hp2 : 0 < (l.partition p).2.length := List.length_pos.mpr h2
  omega

theorem buildFuel_agrees (R : RngModel σ) :
    ∀ (fuel : Nat) (data : List (List ℚ)) (depth height_limit : Nat) (s : σ),
      height_limit - depth < fuel →
      buildFuel R fuel data depth height_limit s =
        some (build_isolation_tree R data depth height_limit s) := by
  intro fuel
  induction fuel with
  | zero => intro data depth hl s h; exact absurd h (by omega)
  | succ fuel ih =>
    intro data depth hl s h
    rw [buildFuel, build_isolation_tree.eq_def]
    by_cases hc : data.length ≤ 1 ∨ hl ≤ depth
    · rw [if_pos hc, dif_pos hc]
    · rw [if_neg hc, dif_neg hc]
      dsimp only
      by_cases heps :
          fabs (foldMax (featureColumn (R.randNat (numFeatures data) s).1 data) -
            foldMin (featureColumn (R.randNat (numFeatures data) s).1 data)) < f64Epsilon
      · rw [if_pos heps, if_pos heps]
      · rw [if_neg heps, if_neg heps]
        by_cases hpart :
            ((data.partition (splitLt (R.randNat (numFeatures data) s).1
                (R.randRange
                  (foldMin (featureColumn (R.randNat (numFeatures data) s).1 data))
                  (foldMax (featureColumn (R.randNat (numFeatures data) s).1 data))
                  (R.randNat (numFeatures data) s).2).1)).1.isEmpty ||
             (data.partition (splitLt (R.randNat (numFeatures data) s).1
                (R.randRange
                  (foldMin (featureColumn (R.randNat (numFeatures data) s).1 data))
                  (foldMax (featureColumn (R.randNat (numFeatures data) s).1 data))
                  (R.randNat (numFeatures data) s).2).1)).2.isEmpty) = true
        · rw [if_pos hpart, if_pos hpart]
        · rw [if_neg hpart, if_neg hpart]
          rw [ih _ (depth + 1) hl _ (by omega)]
          dsimp only
          rw [ih _ (depth + 1) hl _ (by omega)]

/-- C4: for every tree built by `build_isolation_tree`, the `size` fields of
its `Terminal` leaves sum to the number of rows of the data the root call
received. -/
theorem build_leaf_sizes_sum (R : RngModel σ) (data : List (List ℚ))
    (depth height_limit : Nat) (s : σ) :
    leafSizeSum (build_isolation_tree R data depth height_limit s).1 = data.length :=
  build_leafSizeSum_aux R height_limit (height_limit - depth) data depth s (le_refl _)

/-- C2 as frozen is false: `build_isolation_tree` called with an initial
`depth` argument larger than `height_limit` returns a `Terminal` whose
stored depth field is that argument, exceeding `height_limit` (here depth 4
against limit 3 on empty data). -/
theorem build_depth_field_can_exceed_height_limit :
    ¬ (depthsLinked (build_isolation_tree RConst [] 4 3 ()).1 = true ∧
       depthsLe 3 (build_isolation_tree RConst [] 4 3 ()).1 = true ∧
       strictBinary (build_isolation_tree RConst [] 4 3 ()).1 = true) := by
  intro hcl
  have hb : (build_isolation_tree RConst ([] : List (List ℚ)) 4 3 ()).1
      = .Terminal 0 4 := by
    rw [build_isolation_tree.eq_def]
    norm_num
  rw [hb] at hcl
  exact absurd hcl.2.1 (by decide)

/-- C2 (amended): for every tree built with an initial depth at most the
height limit (as in every call `fit` makes, which passes depth 0), each
child's stored depth is its parent's depth plus one, no stored depth
exceeds the height limit, the structural root-to-leaf height is at most
`height_limit - depth`, and every `Internal` node has exactly two
children. -/
theorem build_depth_invariants (R : RngModel σ) (data : List (List ℚ))
    (depth height_limit : Nat) (s : σ) (h : depth ≤ height_limit) :
    depthsLinked (build_isolation_tree R data depth height_limit s).1 = true ∧
    depthsLe height_limit (build_isolation_tree R data depth height_limit s).1 = true ∧
    height (build_isolation_tree R data depth height_limit s).1 ≤ height_limit - depth ∧
    strictBinary (build_isolation_tree R data depth height_limit s).1 = true :=
  ⟨build_depthsLinked_aux R height_limit _ data depth s (le_refl _),
   build_depthsLe_aux R height_limit _ data depth s (le_refl _) h,
   build_height_aux R height_limit _ data depth s (le_refl _),
   strictBinary_true _⟩

theorem build_depth_invariants_witness :
    0 ≤ 1 ∧
    (depthsLinked (build_isolation_tree RConst [[0], [1]] 0 1 ()).1 = true ∧
     depthsLe 1 (build_isolation_tree RConst [[0], [1]] 0 1 ()).1 = true ∧
     height (build_isolation_tree RConst [[0], [1]] 0 1 ()).1 ≤ 1 - 0 ∧
     strictBinary (build_isolation_tree RConst [[0], [1]] 0 1 ()).1 = true) :=
  ⟨Nat.zero_le 1, build_depth_invariants RConst [[0], [1]] 0 1 () (Nat.zero_le 1)⟩

/-- C3: `build_isolation_tree` terminates on every input: the recursion
depth is bounded by `height_limit - depth` (the fuel-indexed unfolding
already succeeds with any fuel exceeding that bound and agrees with the
function), and when the recursion does happen both partitions are non-empty
and hence strictly smaller than the data. -/
theorem build_terminates (R : RngModel σ) (fuel : Nat) (data : List (List ℚ))
    (depth height_limit : Nat) (s : σ) (h : height_limit - depth < fuel) :
    buildFuel R fuel data depth height_limit s =
      some (build_isolation_tree R data depth height_limit s) ∧
    (∀ (p : List ℚ → Bool) (l : List (List ℚ)),
      (l.partition p).1 ≠ [] → (l.partition p).2 ≠ [] →
      (l.partition p).1.length < l.length ∧ (l.partition p).2.length < l.length) :=
  ⟨buildFuel_agrees R fuel data depth height_limit s h,
   fun p l h1 h2 => partition_strict_shrink p l h1 h2⟩

theorem build_terminates_witness :
    (3 - 0 < 4) ∧
    buildFuel RConst 4 [] 0 3 () = some (build_isolation_tree RConst [] 0 3 ()) ∧
    (([[0], [1]] : List (List ℚ)).partition (splitLt 0 1)).1 ≠ [] ∧
    (([[0], [1]] : List (List ℚ)).partition (splitLt 0 1)).2 ≠ [] ∧
    (([[0], [1]] : List (List ℚ)).partition (splitLt 0 1)).1.length < 2 ∧
    (([[0], [1]] : List (List ℚ)).partition (splitLt 0 1)).2.length < 2 := by
  have h := build_terminates RConst 4 [] 0 3 () (by omega)
  have h1 : (([[0], [1]] : List (List ℚ)).partition (splitLt 0 1)).1 ≠ [] := by decide
  have h2 : (([[0], [1]] : List (List ℚ)).partition (splitLt 0 1)).2 ≠ [] := by decide
  have hs := h.2 (splitLt 0 1) [[0], [1]] h1 h2
  exact ⟨by omega, h.1, h1, h2, hs.1, hs.2⟩

end IsolationTreeNode

namespace IsolationTreeNode

/-- C10: if every row of the data has the same length d >= 1, every
`Internal` node of the built tree has `split_feature < d`, so `path_len`
never goes out of bounds on an instance of length at least d; while at any
node whose `split_feature` is at least the instance's length the lookup
`instance[split_feature]` is out of range (a panic, embedded as `none`). -/
theorem build_features_in_bounds (R : RngModel σ) (data : List (List ℚ))
    (d depth height_limit : Nat) (s : σ) (hd : 1 ≤ d)
    (hrows : (data.all fun row => row.length == d) = true) :
    featuresLt d (build_isolation_tree R data depth height_limit s).1 = true ∧
    (∀ inst : List ℚ, d ≤ inst.length → ∀ k,
      (path_len (build_isolation_tree R data depth height_limit s).1 inst k).isSome
        = true) ∧
    (∀ (sf : Nat) (sv : ℚ) (l r : IsolationTreeNode ℚ) (dp : Nat)
        (inst : List ℚ) (k : Nat), inst.length ≤ sf →
      path_len (.Internal sf sv l r dp) inst k = none) := by
  have hrows2 : ∀ row ∈ data, row.length = d := by
    intro row hr
    exact eq_of_beq (List.all_eq_true.mp hrows row hr)
  have hf := build_featuresLt_aux R height_limit d hd (height_limit - depth)
    data depth s (le_refl _) hrows2
  refine ⟨hf, ?_, ?_⟩
  · intro inst hlen k
    exact path_len_isSome d _ hf inst hlen k
  · intro sf sv l r dp inst k hlen
    exact path_len_oob sf sv l r dp inst k hlen

theorem build_features_in_bounds_witness :
    1 ≤ 1 ∧
    (([[0], [1]] : List (List ℚ)).all fun row => row.length == 1) = true ∧
    featuresLt 1 (build_isolation_tree RConst [[0], [1]] 0 1 ()).1 = true ∧
    (path_len (build_isolation_tree RConst [[0], [1]] 0 1 ()).1 [5] 0).isSome = true ∧
    path_len (.Internal 2 0 (.Terminal 0 0) (.Terminal 0 0) 0) [] 0 = none := by
  have h := build_features_in_bounds RConst [[0], [1]] 1 0 1 () (le_refl 1) (by decide)
  exact ⟨le_refl 1, by decide, h.1, h.2.1 [5] (by decide) 0,
    h.2.2 2 0 (.Terminal 0 0) (.Terminal 0 0) 0 [] 0 (by decide)⟩

theorem path_len_ieee_nan_step (sf : Nat) (sv : Option ℚ)
    (l r : IsolationTreeNode (Option ℚ)) (dp : Nat)
    (inst : List (Option ℚ)) (k : Nat) (h : inst.get? sf = some none) :
    path_len_ieee (.Internal sf sv l r dp) inst k = path_len_ieee r inst (k + 1) := by
  rw [path_len_ieee, h]
  have hf : fplt none sv = false := by cases sv <;> rfl
  dsimp only
  rw [hf]
  simp

theorem path_len_ieee_all_nan (inst : List (Option ℚ))
    (hnan : ∀ x ∈ inst, x = none) :
    ∀ (t : IsolationTreeNode (Option ℚ)) (k : Nat),
      path_len_ieee t inst k = descendRight t inst k := by
  intro t
  induction t with
  | Terminal size dp => intro k; rfl
  | Internal sf sv l r dp ihl ihr =>
    intro k
    rw [path_len_ieee, descendRight]
    by_cases hin : sf < inst.length
    · have hget : inst.get? sf = some none := by
        cases hg : inst.get? sf with
        | none => exact absurd (List.get?_eq_none.mp hg) (by omega)
        | some v =>
          have hv := hnan v (List.get?_mem hg)
          rw [hv]
      rw [hget, if_pos hin]
      have hf : fplt none sv = false := by cases sv <;> rfl
      dsimp only
      rw [hf]
      simpa using ihr (k + 1)
    · rw [if_neg hin, List.get?_eq_none.mpr (by omega)]

/-- C9: over the f64 model with NaN (`none`), at every `Internal` node an
instance whose value at the node's split feature is NaN is routed to the
right child, because `NaN < split_value` is false under IEEE comparison;
consequently an instance that is NaN in every feature descends along the
rightmost path of any tree. -/
theorem nan_routes_right :
    (∀ (sf : Nat) (sv : Option ℚ) (l r : IsolationTreeNode (Option ℚ))
        (dp : Nat) (inst : List (Option ℚ)) (k : Nat),
      inst.get? sf = some none →
      path_len_ieee (.Internal sf sv l r dp) inst k = path_len_ieee r inst (k + 1)) ∧
    (∀ (t : IsolationTreeNode (Option ℚ)) (inst : List (Option ℚ)),
      (∀ x ∈ inst, x = none) → ∀ k,
      path_len_ieee t inst k = descendRight t inst k) :=
  ⟨path_len_ieee_nan_step,
   fun t inst hnan k => path_len_ieee_all_nan inst hnan t k⟩

theorem nan_routes_right_witness :
    ([some 0, none] : List (Option ℚ)).get? 1 = some none ∧
    path_len_ieee (.Internal 1 (some 5) (.Terminal 1 1) (.Terminal 2 1) 0)
        [some 0, none] 0
      = path_len_ieee (.Terminal 2 1) [some 0, none] 1 ∧
    (([none] : List (Option ℚ)).all Option.isNone = true) ∧
    path_len_ieee (.Internal 0 (some 5) (.Terminal 1 1) (.Terminal 2 1) 0) [none] 0
      = descendRight (.Internal 0 (some 5) (.Terminal 1 1) (.Terminal 2 1) 0) [none] 0 := by
  refine ⟨rfl, nan_routes_right.1 1 (some 5) _ _ 0 [some 0, none] 0 rfl, by decide, ?_⟩
  exact nan_routes_right.2 _ [none] (by intro x hx; simpa using hx) 0

end IsolationTreeNode

namespace IsolationTreeNode

theorem log_succ_gap (n : Nat) (hn : 2 ≤ n) :
    1 / ((n : ℝ) + 1) < Real.log ((n : ℝ) + 1) - Real.log n := by
  have h0 : (0 : ℝ) < n := by
    have : (2 : ℝ) ≤ n := by exact_mod_cast hn
    linarith
  have h1 : (0 : ℝ) < (n : ℝ) + 1 := by linarith
  have hx : (0 : ℝ) < (n : ℝ) / ((n : ℝ) + 1) := by positivity
  have hne : (n : ℝ) / ((n : ℝ) + 1) ≠ 1 := by
    intro heq
    rw [div_eq_one_iff_eq (by linarith)] at heq
    linarith
  have hkey := Real.log_lt_sub_one_of_pos hx hne
  rw [Real.log_div (ne_of_gt h0) (ne_of_gt h1)] at hkey
  have harith : (n : ℝ) / ((n : ℝ) + 1) - 1 = -(1 / ((n : ℝ) + 1)) := by
    field_simp
  rw [harith] at hkey
  linarith

theorem c_succ_lt (n : Nat) (hn : 2 ≤ n) : c n < c (n + 1) := by
  have h2 : (2 : ℝ) ≤ n := by exact_mod_cast hn
  have h0 : (0 : ℝ) < n := by linarith
  have h1 : (0 : ℝ) < (n : ℝ) + 1 := by linarith
  unfold c
  rw [if_neg (by omega), if_neg (by omega)]
  dsimp only
  push_cast
  have hgap := log_succ_gap n hn
  have hdiff : 2 * ((n : ℝ) + 1 - 1) / ((n : ℝ) + 1) - 2 * ((n : ℝ) - 1) / n
      = 2 / ((n : ℝ) * ((n : ℝ) + 1)) := by
    field_simp
    ring
  have hmono : 2 / ((n : ℝ) * ((n : ℝ) + 1)) ≤ 2 / ((n : ℝ) + 1) := by
    rw [div_le_div_iff₀ (by positivity) (by positivity)]
    nlinarith [h2]
  have htwice : 2 / ((n : ℝ) + 1) = 2 * (1 / ((n : ℝ) + 1)) := by ring
  linarith [hgap, hdiff, hmono, htwice]

theorem c_strictMono_from_two : ∀ a b : Nat, 2 ≤ a → a < b → c a < c b := by
  intro a b ha hab
  induction b with
  | zero => omega
  | succ b ihb =>
    rcases Nat.lt_succ_iff_lt_or_eq.mp hab with h | h
    · exact lt_trans (ihb h) (c_succ_lt b (by omega))
    · subst h
      exact c_succ_lt a ha

/-- C8: the path-length correction `c` is 0 for sizes at most 1, equals
`2(ln size + 0.5772156649) - 2(size-1)/size` for sizes above 1, and is
strictly increasing on sizes above 1. -/
theorem c_spec :
    (∀ size : Nat, size ≤ 1 → c size = 0) ∧
    (∀ size : Nat, 1 < size →
      c size = 2 * (Real.log size + 0.5772156649) - 2 * ((size : ℝ) - 1) / size) ∧
    (∀ a b : Nat, 1 < a → a < b → c a < c b) := by
  refine ⟨?_, ?_, ?_⟩
  · intro size h
    unfold c
    rw [if_pos h]
  · intro size h
    unfold c
    rw [if_neg (by omega)]
  · intro a b ha hab
    exact c_strictMono_from_two a b (by omega) hab

theorem c_spec_witness :
    (1 ≤ 1 ∧ c 1 = 0) ∧
    (1 < 2 ∧ c 2 = 2 * (Real.log ((2 : Nat) : ℝ) + 0.5772156649)
        - 2 * (((2 : Nat) : ℝ) - 1) / ((2 : Nat) : ℝ)) ∧
    (1 < 2 ∧ 2 < 3 ∧ c 2 < c 3) :=
  ⟨⟨le_refl 1, c_spec.1 1 (le_refl 1)⟩,
   ⟨Nat.one_lt_two, c_spec.2.1 2 Nat.one_lt_two⟩,
   ⟨Nat.one_lt_two, by omega, c_spec.2.2 2 3 Nat.one_lt_two (by omega)⟩⟩

end IsolationTreeNode

namespace IsolationForest

theorem sampleLoop_spec (R : RngModel σ) (n ss : Nat) (hn : 0 < n) :
    ∀ (fuel : Nat) (indices : List Nat) (s : σ) (res : List Nat) (s2 : σ),
      indices.Nodup → (∀ i ∈ indices, i < n) → indices.length ≤ ss →
      sampleLoop R n ss fuel indices s = some (res, s2) →
      res.Nodup ∧ res.length = ss ∧ (∀ i ∈ res, i < n) := by
  intro fuel
  induction fuel with
  | zero =>
    intro indices s res s2 hnd hmem hle h
    rw [sampleLoop] at h
    split at h
    · next hfull =>
      injection Option.some.inj h with h1 h2
      subst h1
      subst h2
      exact ⟨hnd, le_antisymm hle hfull, hmem⟩
    · exact absurd h (by simp)
  | succ fuel ih =>
    intro indices s res s2 hnd hmem hle h
    rw [sampleLoop] at h
    split at h
    · next hfull =>
      injection Option.some.inj h with h1 h2
      subst h1
      subst h2
      exact ⟨hnd, le_antisymm hle hfull, hmem⟩
    · next hfull =>
      dsimp only at h
      split at h
      · exact ih indices _ res s2 hnd hmem hle h
      · next hnotmem =>
        refine ih (indices ++ [(R.randNat n s).1]) _ res s2 ?_ ?_ ?_ h
        · simp [List.nodup_append, hnd, hnotmem]
        · intro i hi
          rcases List.mem_append.mp hi with hi | hi
          · exact hmem i hi
          · rw [List.mem_singleton.mp hi]
            exact R.randNat_lt n s hn
        · have : ¬ ss ≤ indices.length := hfull
          simp only [List.length_append, List.length_singleton]
          omega

end IsolationForest

namespace IsolationForest

/-- C6: `get_random_subsample` returns the whole dataset unchanged when
`subsample_size` is at least the dataset size; otherwise, whenever the
rejection-sampling loop completes, it returns exactly `subsample_size`
points selected by pairwise-distinct indices below the dataset size, each
returned point being the dataset entry at its index. -/
theorem get_random_subsample_spec (R : RngModel σ) (subsample_size : Nat)
    (data : List (List ℚ)) (fuel : Nat) (s : σ) :
    (data.length ≤ subsample_size →
      get_random_subsample R subsample_size data fuel s = some (data, s)) ∧
    (subsample_size < data.length →
      ∀ sub s2, get_random_subsample R subsample_size data fuel s = some (sub, s2) →
      ∃ indices : List Nat, indices.Nodup ∧ indices.length = subsample_size ∧
        (∀ i ∈ indices, i < data.length) ∧
        sub = indices.map (fun idx => data.getD idx [])) := by
  constructor
  · intro hle
    unfold get_random_subsample
    rw [if_pos (Nat.min_eq_right hle)]
  · intro hlt sub s2 h
    unfold get_random_subsample at h
    dsimp only at h
    have hmin : min subsample_size data.length = subsample_size :=
      Nat.min_eq_left (le_of_lt hlt)
    rw [hmin, if_neg (by omega)] at h
    cases hsl : sampleLoop R data.length subsample_size fuel [] s with
    | none => rw [hsl] at h; exact absurd h (by simp)
    | some p =>
      obtain ⟨indices, s1⟩ := p
      rw [hsl] at h
      dsimp only at h
      injection Option.some.inj h with h1 h2
      have hspec := sampleLoop_spec R data.length subsample_size (by omega)
        fuel [] s indices s1 List.nodup_nil (by simp) (by simp) hsl
      exact ⟨indices, hspec.1, hspec.2.1, hspec.2.2, h1.symm⟩

theorem get_random_subsample_spec_witness :
    (([[1], [2]] : List (List ℚ)).length ≤ 3 ∧
      get_random_subsample RConst 3 [[1], [2]] 0 () = some ([[1], [2]], ())) ∧
    ((1 : Nat) < ([[1], [2]] : List (List ℚ)).length ∧
      ∃ indices : List Nat, indices.Nodup ∧ indices.length = 1 ∧
        (∀ i ∈ indices, i < ([[1], [2]] : List (List ℚ)).length) ∧
        ([[1]] : List (List ℚ))
          = indices.map (fun idx => ([[1], [2]] : List (List ℚ)).getD idx [])) := by
  constructor
  · exact ⟨by decide,
      (get_random_subsample_spec RConst 3 [[1], [2]] 0 ()).1 (by decide)⟩
  · refine ⟨by decide, ?_⟩
    have h : get_random_subsample RConst 1 [[1], [2]] 1 ()
        = some ([[1]], ()) := by decide
    exact (get_random_subsample_spec RConst 1 [[1], [2]] 1 ()).2 (by decide) [[1]] () h

/-- C5: with a fixed seed the construction is deterministic: two forests
built by `new` with identical `num_trees`, `subsample_size` and `some seed`
(and arbitrary, possibly different, OS entropy, which is ignored when a
seed is given) and fit on the same data produce the same `fit` outcome; in
particular identical ensembles and bit-identical scores on any common
dataset. -/
theorem fit_deterministic_of_seed (R : RngModel σ)
    (num_trees subsample_size : Nat) (sd : UInt64) (os1 os2 : σ)
    (data data2 : List (List ℚ)) (fuel : Nat) :
    fit R (new R num_trees subsample_size (some sd) os1) data fuel =
      fit R (new R num_trees subsample_size (some sd) os2) data fuel ∧
    (∀ G1 G2,
      fit R (new R num_trees subsample_size (some sd) os1) data fuel = some G1 →
      fit R (new R num_trees subsample_size (some sd) os2) data fuel = some G2 →
      G1.trees = G2.trees ∧ score G1 data2 = score G2 data2) := by
  have hF : new R num_trees subsample_size (some sd) os1
      = new R num_trees subsample_size (some sd) os2 := rfl
  refine ⟨by rw [hF], ?_⟩
  intro G1 G2 h1 h2
  rw [hF, h2] at h1
  obtain rfl := Option.some.inj h1
  exact ⟨rfl, rfl⟩

theorem fit_deterministic_of_seed_witness :
    fit RConst (new RConst 0 2 (some 1) ()) [] 0
        = some (new RConst 0 2 (some 1) ()) ∧
    (new RConst 0 2 (some 1) ()).trees = (new RConst 0 2 (some 1) ()).trees ∧
    score (new RConst 0 2 (some 1) ()) [] = score (new RConst 0 2 (some 1) ()) [] := by
  have h : fit RConst (new RConst 0 2 (some 1) ()) [] 0
      = some (new RConst 0 2 (some 1) ()) := rfl
  exact ⟨h, (fit_deterministic_of_seed RConst 0 2 1 () () [] [] 0).2 _ _ h h⟩

end IsolationForest

end IForest
